import Mathlib

/-!
Verification of the minimization engine of `logiccircuite.py`.

The engine is `qm_simplify(minterms, num_vars)` with its inner helper
`combine(a, b)`, and the renderer `bits_to_expr(bits, vars_sorted)`.
Patterns are modelled as `List Char`, Python sets as `Finset`.
-/

/-- Binary digits of `m`, least significant first (empty for `m = 0`),
computed with explicit fuel so that the definition is structurally
recursive; fuel `f ≥ m` yields the full digit list. -/
def binDigitsRevAux : Nat → Nat → List Char
  | 0, _ => []
  | _ + 1, 0 => []
  | m + 1, f + 1 =>
    (if (m + 1) % 2 = 1 then '1' else '0') :: binDigitsRevAux ((m + 1) / 2) f

/-- Binary digits of `m`, least significant first (empty for `m = 0`). -/
def binDigitsRev (m : Nat) : List Char :=
  binDigitsRevAux m m

/-- The unpadded binary representation of `m`, most significant first,
at least one digit (as Python `format(m, 'b')` produces). -/
def natToBitsRaw (m : Nat) : List Char :=
  if m = 0 then ['0'] else (binDigitsRev m).reverse

/-- Python `format(m, '0{n}b')`: the binary representation of `m`
(at least one digit), left-padded with '0' to width `n`. -/
def natToBits (n m : Nat) : List Char :=
  List.replicate (n - (natToBitsRaw m).length) '0' ++ natToBitsRaw m

/-- Python `int(s, 2)` for a binary digit string, most significant first
(on the strings reachable in the program every character is '0' or '1'). -/
def bitsToNat (l : List Char) : Nat :=
  l.foldl (fun acc c => 2 * acc + (if c = '1' then 1 else 0)) 0

/-- Python `t.replace('-', '0')`. -/
def dashToZero (t : List Char) : List Char :=
  t.map (fun c => if c = '-' then '0' else c)

/-- The mismatch counter `diff` of the loop inside `combine`; the loop
runs over `zip(a, b)`, so it stops at the shorter argument. -/
def countDiff : List Char → List Char → Nat
  | x :: xs, y :: ys => (if x = y then 0 else 1) + countDiff xs ys
  | _, _ => 0

/-- The `res` list built by the loop inside `combine`: '-' where the two
characters differ, the (shared) character where they agree. -/
def mergeDiff : List Char → List Char → List Char
  | x :: xs, y :: ys => (if x = y then x else '-') :: mergeDiff xs ys
  | _, _ => []

/-- The inner `combine` of `qm_simplify`: the merged pattern when exactly
one zipped position differs, `none` otherwise. -/
def combine (a b : List Char) : Option (List Char) :=
  if countDiff a b = 1 then some (mergeDiff a b) else none

/-- `terms = {format(m, '0{num_vars}b') for m in minterms}`. -/
def toTerms (minterms : Finset Nat) (n : Nat) : Finset (List Char) :=
  minterms.image (natToBits n)

/-- The set `new_terms` collected by the double loop over `terms`. -/
def newTerms (terms : Finset (List Char)) : Finset (List Char) :=
  terms.biUnion fun a => terms.biUnion fun b => (combine a b).toFinset

/-- The final value of `unchecked`: the members of `terms` that were never
discarded, i.e. that take part in no successful combination, on either
side of the pair. -/
def uncheckedOf (terms : Finset (List Char)) : Finset (List Char) :=
  terms.filter fun t => ∀ u ∈ terms, combine t u = none ∧ combine u t = none

/-- The recursion of `qm_simplify`, with explicit fuel: one unit of fuel
per recursive level.  The recursive call re-encodes every combined pattern
as `int(t.replace('-', '0'), 2)`, exactly as the source does. -/
def qmFuel : Nat → Finset Nat → Nat → Option (Finset (List Char))
  | 0, _, _ => none
  | fuel + 1, minterms, n =>
    if newTerms (toTerms minterms n) = ∅ then some (uncheckedOf (toTerms minterms n))
    else
      match qmFuel fuel ((newTerms (toTerms minterms n)).image
          fun t => bitsToNat (dashToZero t)) n with
      | some r => some (r ∪ uncheckedOf (toTerms minterms n))
      | none => none

/-- `qm_simplify(minterms, num_vars)`.  Fuel `n + 1` is proved sufficient
for every valid input (`qm_terminates_within_n_levels` below). -/
def qm_simplify (minterms : Finset Nat) (n : Nat) : Finset (List Char) :=
  (qmFuel (n + 1) minterms n).getD ∅

/-- `bits_to_expr(bits, vars_sorted)`: positive literal for '1', negated
literal for '0', nothing otherwise; the literals joined with '.', and the
constant "1" when no literal survives. -/
def bits_to_expr (bits : List Char) (vars_sorted : List String) : String :=
  if ((bits.zip vars_sorted).filterMap fun p =>
      if p.1 = '1' then some p.2
      else if p.1 = '0' then some ("!" ++ p.2)
      else none) = [] then "1"
  else String.intercalate "." ((bits.zip vars_sorted).filterMap fun p =>
    if p.1 = '1' then some p.2
    else if p.1 = '0' then some ("!" ++ p.2)
    else none)

/-- The specification's coverage relation: pattern `p` covers assignment
index `m` (at width `n`) iff every non-'-' position of `p` agrees with the
corresponding bit of the `n`-bit encoding of `m`. -/
def coversB (p : List Char) (n m : Nat) : Bool :=
  (p.zip (natToBits n m)).all fun q => q.1 == '-' || q.1 == q.2

/-- The renderer exactly as the specification words it: for each position,
'1' emits the positive literal, '0' the negated literal, '-' nothing; the
surviving literals are joined with the AND connective, and an all-'-'
pattern renders as the constant "1". -/
def renderSpec (bits : List Char) (vars : List String) : String :=
  if bits.all (· == '-') then "1"
  else
    String.intercalate "."
      ((bits.zip vars).filterMap fun p =>
        if p.1 = '1' then some p.2
        else if p.1 = '0' then some ("!" ++ p.2)
        else none)

/-! ### Arithmetic facts about the bit-string encodings -/

/-- Value of a digit list, least significant digit first (proof helper). -/
def bitsToNatRev : List Char → Nat
  | [] => 0
  | c :: cs => (if c = '1' then 1 else 0) + 2 * bitsToNatRev cs

theorem bitsToNat_append_singleton (l : List Char) (c : Char) :
    bitsToNat (l ++ [c]) = 2 * bitsToNat l + (if c = '1' then 1 else 0) := by
  simp [bitsToNat, List.foldl_append]

theorem bitsToNat_reverse (l : List Char) : bitsToNat l.reverse = bitsToNatRev l := by
  induction l with
  | nil => rfl
  | cons c cs ih =>
    rw [List.reverse_cons, bitsToNat_append_singleton, ih, bitsToNatRev]
    omega

theorem binDigitsRevAux_val : ∀ f m, m ≤ f → bitsToNatRev (binDigitsRevAux m f) = m := by
  intro f
  induction f with
  | zero =>
    intro m hm
    interval_cases m
    rfl
  | succ f ih =>
    intro m hm
    match m with
    | 0 => rfl
    | k + 1 =>
      have h2 : (k + 1) / 2 ≤ f := by omega
      rw [binDigitsRevAux, bitsToNatRev, ih _ h2]
      rcases Nat.mod_two_eq_zero_or_one (k + 1) with h | h <;> simp [h] <;> omega

theorem binDigitsRevAux_length : ∀ f m k, m ≤ f → m < 2 ^ k →
    (binDigitsRevAux m f).length ≤ k := by
  intro f
  induction f with
  | zero =>
    intro m k hm _
    interval_cases m
    simp [binDigitsRevAux]
  | succ f ih =>
    intro m k hm hk
    match m with
    | 0 => simp [binDigitsRevAux]
    | j + 1 =>
      match k with
      | 0 => simp at hk
      | k + 1 =>
        have h2 : (j + 1) / 2 ≤ f := by omega
        have hpow : (2 : Nat) ^ (k + 1) = 2 * 2 ^ k := by ring
        have h3 : (j + 1) / 2 < 2 ^ k := by omega
        have := ih ((j + 1) / 2) k h2 h3
        rw [binDigitsRevAux]
        simp only [List.length_cons]
        omega

theorem binDigitsRevAux_chars : ∀ f m c, c ∈ binDigitsRevAux m f → c = '0' ∨ c = '1' := by
  intro f
  induction f with
  | zero =>
    intro m c hc
    match m with
    | 0 => simp [binDigitsRevAux] at hc
    | _ + 1 => simp [binDigitsRevAux] at hc
  | succ f ih =>
    intro m c hc
    match m with
    | 0 => simp [binDigitsRevAux] at hc
    | k + 1 =>
      rw [binDigitsRevAux] at hc
      rcases List.mem_cons.mp hc with h | h
      · subst h
        split <;> simp
      · exact ih _ _ h

theorem bitsToNat_cons_zero (l : List Char) : bitsToNat ('0' :: l) = bitsToNat l := rfl

theorem bitsToNat_replicate_zero (k : Nat) (l : List Char) :
    bitsToNat (List.replicate k '0' ++ l) = bitsToNat l := by
  induction k with
  | zero => rfl
  | succ k ih => rw [List.replicate_succ, List.cons_append, bitsToNat_cons_zero, ih]

theorem bitsToNat_natToBitsRaw (m : Nat) : bitsToNat (natToBitsRaw m) = m := by
  rw [natToBitsRaw]
  by_cases h : m = 0
  · simp [h]; rfl
  · rw [if_neg h, bitsToNat_reverse, binDigitsRev, binDigitsRevAux_val m m le_rfl]

theorem bitsToNat_natToBits (n m : Nat) : bitsToNat (natToBits n m) = m := by
  rw [natToBits, bitsToNat_replicate_zero, bitsToNat_natToBitsRaw]

theorem natToBitsRaw_length_le (m k : Nat) (hk : 1 ≤ k) (h : m < 2 ^ k) :
    (natToBitsRaw m).length ≤ k := by
  rw [natToBitsRaw]
  by_cases h0 : m = 0
  · simp [h0]; omega
  · rw [if_neg h0, List.length_reverse]
    exact binDigitsRevAux_length m m k le_rfl h

theorem natToBits_length (n m : Nat) (hn : 1 ≤ n) (h : m < 2 ^ n) :
    (natToBits n m).length = n := by
  have hle := natToBitsRaw_length_le m n hn h
  rw [natToBits, List.length_append, List.length_replicate]
  omega

theorem natToBitsRaw_chars (m : Nat) : ∀ c ∈ natToBitsRaw m, c = '0' ∨ c = '1' := by
  intro c hc
  rw [natToBitsRaw] at hc
  by_cases h0 : m = 0
  · rw [if_pos h0] at hc
    simp at hc
    simp [hc]
  · rw [if_neg h0, List.mem_reverse] at hc
    exact binDigitsRevAux_chars m m c hc

theorem natToBits_chars (n m : Nat) : ∀ c ∈ natToBits n m, c = '0' ∨ c = '1' := by
  intro c hc
  rw [natToBits] at hc
  rcases List.mem_append.mp hc with h | h
  · left
    exact List.eq_of_mem_replicate h
  · exact natToBitsRaw_chars m c h

/-- Valid encodings determine their value: `natToBits` is injective on the
minterm range via `bitsToNat`. -/
theorem natToBits_inj (n m₁ m₂ : Nat) (h : natToBits n m₁ = natToBits n m₂) :
    m₁ = m₂ := by
  have := congrArg bitsToNat h
  rwa [bitsToNat_natToBits, bitsToNat_natToBits] at this

/-! ### Facts about `combine` -/

theorem countDiff_self : ∀ l : List Char, countDiff l l = 0 := by
  intro l
  induction l with
  | nil => rfl
  | cons x xs ih => simp [countDiff, ih]

theorem mergeDiff_self : ∀ l : List Char, mergeDiff l l = l := by
  intro l
  induction l with
  | nil => rfl
  | cons x xs ih => simp [mergeDiff, ih]

theorem countDiff_eq_zero : ∀ a b : List Char, a.length = b.length →
    countDiff a b = 0 → a = b := by
  intro a
  induction a with
  | nil =>
    intro b hl _
    cases b with
    | nil => rfl
    | cons y ys => simp at hl
  | cons x xs ih =>
    intro b hl hd
    cases b with
    | nil => simp at hl
    | cons y ys =>
      rw [countDiff] at hd
      by_cases hxy : x = y
      · rw [if_pos hxy] at hd
        rw [hxy, ih ys (by simpa using hl) (by omega)]
      · rw [if_neg hxy] at hd
        omega

theorem combine_eq_some (a b c : List Char) :
    combine a b = some c ↔ countDiff a b = 1 ∧ c = mergeDiff a b := by
  rw [combine]
  by_cases h : countDiff a b = 1
  · simp [h, eq_comm]
  · simp [h]

theorem dashToZero_of_binary (l : List Char) (h : ∀ c ∈ l, c = '0' ∨ c = '1') :
    dashToZero l = l := by
  induction l with
  | nil => rfl
  | cons x xs ih =>
    have hx : x = '0' ∨ x = '1' := h x (by simp)
    have hxs := ih (fun c hc => h c (by simp [hc]))
    rw [dashToZero, List.map_cons]
    rw [dashToZero] at hxs
    rw [hxs]
    rcases hx with h0 | h0 <;> subst h0 <;> rfl

/-- The central case analysis: when two same-length binary patterns combine,
zeroing the produced '-' recovers the member of the pair that carries '0' at
the differing position, and the other member carries exactly one more '1'. -/
theorem combine_binary_cases : ∀ a b : List Char, a.length = b.length →
    (∀ c ∈ a, c = '0' ∨ c = '1') → (∀ c ∈ b, c = '0' ∨ c = '1') →
    countDiff a b = 1 →
    (dashToZero (mergeDiff a b) = a ∧ b.count '1' = a.count '1' + 1) ∨
    (dashToZero (mergeDiff a b) = b ∧ a.count '1' = b.count '1' + 1) := by
  intro a
  induction a with
  | nil =>
    intro b hl _ _ hd
    cases b with
    | nil => simp [countDiff] at hd
    | cons y ys => simp at hl
  | cons x xs ih =>
    intro b hl ha hb hd
    cases b with
    | nil => simp at hl
    | cons y ys =>
      have hl' : xs.length = ys.length := by simpa using hl
      have hax : x = '0' ∨ x = '1' := ha x (by simp)
      have hby : y = '0' ∨ y = '1' := hb y (by simp)
      have ha' : ∀ c ∈ xs, c = '0' ∨ c = '1' := fun c hc => ha c (by simp [hc])
      have hb' : ∀ c ∈ ys, c = '0' ∨ c = '1' := fun c hc => hb c (by simp [hc])
      have hxdash : (if x = '-' then '0' else x) = x := by
        rcases hax with h | h <;> subst h <;> rfl
      rw [countDiff] at hd
      by_cases hxy : x = y
      · rw [if_pos hxy] at hd
        have hd' : countDiff xs ys = 1 := by omega
        rw [mergeDiff, if_pos hxy]
        rcases ih ys hl' ha' hb' hd' with ⟨h1, h2⟩ | ⟨h1, h2⟩
        · left
          constructor
          · rw [dashToZero, List.map_cons]
            rw [dashToZero] at h1
            rw [h1, hxdash]
          · subst hxy
            simp [List.count_cons, h2]
            ring
        · right
          constructor
          · rw [dashToZero, List.map_cons]
            rw [dashToZero] at h1
            rw [h1, hxdash, hxy]
          · subst hxy
            simp [List.count_cons, h2]
            ring
      · rw [if_neg hxy] at hd
        have hd' : countDiff xs ys = 0 := by omega
        have hxs : xs = ys := countDiff_eq_zero xs ys hl' hd'
        subst hxs
        rw [mergeDiff, if_neg hxy, mergeDiff_self]
        have hdz : dashToZero ('-' :: xs) = '0' :: xs := by
          have hself := dashToZero_of_binary xs ha'
          rw [dashToZero, List.map_cons, if_pos rfl]
          rw [dashToZero] at hself
          rw [hself]
        rcases hax with hx0 | hx1
        · have hy1 : y = '1' := by
            rcases hby with h | h
            · exact absurd (hx0.trans h.symm) hxy
            · exact h
          left
          constructor
          · rw [hdz, hx0]
          · subst hx0 hy1
            simp [List.count_cons]
        · have hy0 : y = '0' := by
            rcases hby with h | h
            · exact h
            · exact absurd (hx1.trans h.symm) hxy
          right
          constructor
          · rw [hdz, hy0]
          · subst hx1 hy0
            simp [List.count_cons]

/-! ### The working-set invariants of `qm_simplify` -/

theorem mem_newTerms (terms : Finset (List Char)) (c : List Char) :
    c ∈ newTerms terms ↔ ∃ a ∈ terms, ∃ b ∈ terms, combine a b = some c := by
  simp [newTerms, Finset.mem_biUnion, Option.mem_toFinset, Option.mem_def]

theorem uncheckedOf_subset (terms : Finset (List Char)) : uncheckedOf terms ⊆ terms :=
  Finset.filter_subset _ _

/-- Every combined pattern of one level, once its '-' is zeroed and its value
is taken, is the input minterm of the pair that carried '0' at the combining
position; the partner minterm's encoding has one more '1'. -/
theorem newTerms_elim (minterms : Finset Nat) (n : Nat) (hn : 1 ≤ n)
    (hv : ∀ m ∈ minterms, m < 2 ^ n) (c : List Char)
    (hc : c ∈ newTerms (toTerms minterms n)) :
    ∃ mlo ∈ minterms, ∃ mhi ∈ minterms,
      dashToZero c = natToBits n mlo ∧ bitsToNat (dashToZero c) = mlo ∧
      (natToBits n mhi).count '1' = (natToBits n mlo).count '1' + 1 := by
  rcases (mem_newTerms _ c).mp hc with ⟨a, haT, b, hbT, hab⟩
  rcases Finset.mem_image.mp haT with ⟨m₁, hm₁, rfl⟩
  rcases Finset.mem_image.mp hbT with ⟨m₂, hm₂, rfl⟩
  rcases (combine_eq_some _ _ _).mp hab with ⟨hdiff, rfl⟩
  have hla : (natToBits n m₁).length = n := natToBits_length n m₁ hn (hv _ hm₁)
  have hlb : (natToBits n m₂).length = n := natToBits_length n m₂ hn (hv _ hm₂)
  rcases combine_binary_cases (natToBits n m₁) (natToBits n m₂) (by rw [hla, hlb])
      (natToBits_chars n m₁) (natToBits_chars n m₂) hdiff with ⟨h1, h2⟩ | ⟨h1, h2⟩
  · exact ⟨m₁, hm₁, m₂, hm₂, h1, by rw [h1, bitsToNat_natToBits], h2⟩
  · exact ⟨m₂, hm₂, m₁, hm₁, h1, by rw [h1, bitsToNat_natToBits], h2⟩

/-- The minterm set handed to the recursive call of `qm_simplify` is a subset
of the current one: zeroing the produced '-' recovers a member of the
combining pair. -/
theorem nextMinterms_subset (minterms : Finset Nat) (n : Nat) (hn : 1 ≤ n)
    (hv : ∀ m ∈ minterms, m < 2 ^ n) :
    ((newTerms (toTerms minterms n)).image fun t => bitsToNat (dashToZero t))
      ⊆ minterms := by
  intro m' hm'
  rcases Finset.mem_image.mp hm' with ⟨c, hc, rfl⟩
  rcases newTerms_elim minterms n hn hv c hc with ⟨mlo, hlo, _, _, _, hval, _⟩
  rw [hval]
  exact hlo

/-- Whatever `qmFuel` returns is a set of full binary encodings of input
minterms. -/
theorem qmFuel_subset : ∀ fuel (minterms : Finset Nat) (n : Nat) r, 1 ≤ n →
    (∀ m ∈ minterms, m < 2 ^ n) → qmFuel fuel minterms n = some r →
    r ⊆ toTerms minterms n := by
  intro fuel
  induction fuel with
  | zero =>
    intro minterms n r _ _ h
    simp [qmFuel] at h
  | succ fuel ih =>
    intro minterms n r hn hv h
    rw [qmFuel] at h
    by_cases hnt : newTerms (toTerms minterms n) = ∅
    · rw [if_pos hnt] at h
      rw [← Option.some.inj h]
      exact uncheckedOf_subset _
    · rw [if_neg hnt] at h
      have hsub := nextMinterms_subset minterms n hn hv
      have hv' : ∀ m ∈ ((newTerms (toTerms minterms n)).image
          fun t => bitsToNat (dashToZero t)), m < 2 ^ n := fun m hm => hv m (hsub hm)
      cases hq : qmFuel fuel ((newTerms (toTerms minterms n)).image
          fun t => bitsToNat (dashToZero t)) n with
      | none => rw [hq] at h; simp at h
      | some r' =>
        rw [hq] at h
        have hr : r' ∪ uncheckedOf (toTerms minterms n) = r := Option.some.inj h
        have ihr := ih _ n r' hn hv' hq
        intro p hp
        rw [← hr] at hp
        rcases Finset.mem_union.mp hp with hp | hp
        · have hmem : p ∈ toTerms ((newTerms (toTerms minterms n)).image
              fun t => bitsToNat (dashToZero t)) n := ihr hp
          rw [toTerms] at hmem ⊢
          exact Finset.image_subset_image hsub hmem
        · exact uncheckedOf_subset _ hp

/-- Fuel bound: if every input minterm's encoding carries at most `k` ones,
`k + 1` units of fuel reach the base case (each combining level strictly
lowers the maximal number of ones). -/
theorem qmFuel_isSome : ∀ k (minterms : Finset Nat) (n : Nat), 1 ≤ n →
    (∀ m ∈ minterms, m < 2 ^ n) →
    (∀ m ∈ minterms, (natToBits n m).count '1' ≤ k) →
    ∃ r, qmFuel (k + 1) minterms n = some r := by
  intro k
  induction k with
  | zero =>
    intro minterms n hn hv hcount
    by_cases hnt : newTerms (toTerms minterms n) = ∅
    · exact ⟨_, by rw [qmFuel, if_pos hnt]⟩
    · exfalso
      rcases Finset.nonempty_iff_ne_empty.mpr hnt with ⟨c, hc⟩
      rcases newTerms_elim minterms n hn hv c hc with ⟨mlo, hlo, mhi, hhi, _, _, hcnt⟩
      have := hcount mhi hhi
      omega
  | succ k ih =>
    intro minterms n hn hv hcount
    by_cases hnt : newTerms (toTerms minterms n) = ∅
    · exact ⟨_, by rw [qmFuel, if_pos hnt]⟩
    · have hsub := nextMinterms_subset minterms n hn hv
      have hv' : ∀ m ∈ ((newTerms (toTerms minterms n)).image
          fun t => bitsToNat (dashToZero t)), m < 2 ^ n := fun m hm => hv m (hsub hm)
      have hcount' : ∀ m ∈ ((newTerms (toTerms minterms n)).image
          fun t => bitsToNat (dashToZero t)), (natToBits n m).count '1' ≤ k := by
        intro m hm
        rcases Finset.mem_image.mp hm with ⟨c, hc, rfl⟩
        rcases newTerms_elim minterms n hn hv c hc with ⟨mlo, hlo, mhi, hhi, _, hval, hcnt⟩
        rw [hval]
        have := hcount mhi hhi
        omega
      rcases ih _ n hn hv' hcount' with ⟨r', hr'⟩
      refine ⟨r' ∪ uncheckedOf (toTerms minterms n), ?_⟩
      rw [qmFuel, if_neg hnt, hr']

/-- Total ones bound for a valid minterm. -/
theorem natToBits_count_le (n m : Nat) (hn : 1 ≤ n) (h : m < 2 ^ n) :
    (natToBits n m).count '1' ≤ n := by
  have := List.count_le_length '1' (natToBits n m)
  rw [natToBits_length n m hn h] at this
  exact this

/-- On a valid input `qm_simplify` is the value of the fuel-`n + 1` run. -/
theorem qm_simplify_eq_qmFuel (minterms : Finset Nat) (n : Nat) (hn : 1 ≤ n)
    (hv : ∀ m ∈ minterms, m < 2 ^ n) :
    ∃ r, qmFuel (n + 1) minterms n = some r ∧ qm_simplify minterms n = r := by
  rcases qmFuel_isSome n minterms n hn hv
      (fun m hm => natToBits_count_le n m hn (hv m hm)) with ⟨r, hr⟩
  exact ⟨r, hr, by rw [qm_simplify, hr]; rfl⟩

/-- On a valid input every returned pattern is the `n`-bit encoding of an
input minterm. -/
theorem qm_simplify_subset (minterms : Finset Nat) (n : Nat) (hn : 1 ≤ n)
    (hv : ∀ m ∈ minterms, m < 2 ^ n) :
    qm_simplify minterms n ⊆ toTerms minterms n := by
  rw [qm_simplify]
  cases hq : qmFuel (n + 1) minterms n with
  | none => simp
  | some r =>
    have := qmFuel_subset (n + 1) minterms n r hn hv hq
    simpa using this

/-! ### The coverage relation on dash-free patterns -/

theorem zip_all_eq : ∀ xs ys : List Char, xs.length = ys.length →
    (∀ c ∈ xs, c ≠ '-') →
    ((((xs.zip ys).all fun q => q.1 == '-' || q.1 == q.2) = true) ↔ xs = ys) := by
  intro xs
  induction xs with
  | nil =>
    intro ys hl _
    cases ys with
    | nil => simp
    | cons y ys => simp at hl
  | cons x xs ih =>
    intro ys hl hnd
    cases ys with
    | nil => simp at hl
    | cons y ys =>
      have hx : x ≠ '-' := hnd x (by simp)
      have hnd' : ∀ c ∈ xs, c ≠ '-' := fun c hc => hnd c (by simp [hc])
      have hl' : xs.length = ys.length := by simpa using hl
      simp only [List.zip_cons_cons, List.all_cons, Bool.and_eq_true, Bool.or_eq_true,
        beq_iff_eq, ih ys hl' hnd', List.cons.injEq]
      constructor
      · rintro ⟨h1 | h1, h2⟩
        · exact absurd h1 hx
        · exact ⟨h1, h2⟩
      · rintro ⟨h1, h2⟩
        exact ⟨Or.inr h1, h2⟩

theorem coversB_iff (p : List Char) (n m : Nat) (hb : ∀ c ∈ p, c = '0' ∨ c = '1')
    (hl : p.length = (natToBits n m).length) :
    coversB p n m = true ↔ p = natToBits n m := by
  rw [coversB]
  exact zip_all_eq p (natToBits n m) hl
    (fun c hc => by rcases hb c hc with h | h <;> simp [h])

/-- Bounded pointwise equality of equal-length lists is equality. -/
theorem eq_of_getElem_eq : ∀ xs ys : List Char, xs.length = ys.length →
    (∀ j ∈ List.range xs.length, xs[j]? = ys[j]?) → xs = ys := by
  intro xs
  induction xs with
  | nil =>
    intro ys hl _
    cases ys with
    | nil => rfl
    | cons y ys => simp at hl
  | cons x xs ih =>
    intro ys hl hall
    cases ys with
    | nil => simp at hl
    | cons y ys =>
      have h0 := hall 0 (by simp)
      simp only [List.getElem?_cons_zero, Option.some.injEq] at h0
      have htail : ∀ j ∈ List.range xs.length, xs[j]? = ys[j]? := by
        intro j hj
        have := hall (j + 1) (by simp at hj ⊢; omega)
        simpa using this
      rw [h0, ih ys (by simpa using hl) htail]

/-- Claim C5 amended: applied to two equal-length patterns, `combine`
produces a pattern exactly when they differ in exactly one position — '-'
being compared like any other character, with no special case for a
position where only one side holds '-' — and the result replaces that one
position by '-' and copies all other positions unchanged. -/
theorem combine_one_diff_spec (a : List Char) : ∀ b c : List Char,
    a.length = b.length →
    (combine a b = some c ↔
      ∃ i, i < a.length ∧ a[i]? ≠ b[i]? ∧
        (∀ j ∈ List.range a.length, j ≠ i → a[j]? = b[j]?) ∧
        c = a.set i '-') := by
  induction a with
  | nil =>
    intro b c hl
    cases b with
    | nil => simp [combine, countDiff]
    | cons y ys => simp at hl
  | cons x xs ih =>
    intro b c hl
    cases b with
    | nil => simp at hl
    | cons y ys =>
      have hl' : xs.length = ys.length := by simpa using hl
      rw [combine_eq_some]
      constructor
      · rintro ⟨hd, rfl⟩
        rw [countDiff] at hd
        by_cases hxy : x = y
        · rw [if_pos hxy] at hd
          have hd' : countDiff xs ys = 1 := by omega
          rcases (ih ys (mergeDiff xs ys) hl').mp
              ((combine_eq_some xs ys (mergeDiff xs ys)).mpr ⟨hd', rfl⟩)
            with ⟨i, hi, hne, hall, hset⟩
          refine ⟨i + 1, by simp; omega, by simpa using hne, ?_, ?_⟩
          · intro j hj hji
            match j with
            | 0 => simp [hxy]
            | j + 1 =>
              have hjr : j ∈ List.range xs.length := by simp at hj ⊢; omega
              simpa using hall j hjr (by omega)
          · rw [mergeDiff, if_pos hxy, List.set_cons_succ, ← hset]
        · rw [if_neg hxy] at hd
          have hd' : countDiff xs ys = 0 := by omega
          have hxs : xs = ys := countDiff_eq_zero xs ys hl' hd'
          subst hxs
          refine ⟨0, by simp, by simpa using hxy, ?_, ?_⟩
          · intro j hj hj0
            match j with
            | 0 => exact absurd rfl hj0
            | j + 1 => simp
          · rw [mergeDiff, if_neg hxy, mergeDiff_self, List.set_cons_zero]
      · rintro ⟨i, hi, hne, hall, rfl⟩
        match i with
        | 0 =>
          have hxy : x ≠ y := by simpa using hne
          have hxs : xs = ys := by
            refine eq_of_getElem_eq xs ys hl' ?_
            intro j hj
            have := hall (j + 1) (by simp at hj ⊢; omega) (by omega)
            simpa using this
          subst hxs
          refine ⟨?_, ?_⟩
          · rw [countDiff, if_neg hxy, countDiff_self]
          · rw [mergeDiff, if_neg hxy, mergeDiff_self, List.set_cons_zero]
        | i + 1 =>
          have hxy : x = y := by
            have := hall 0 (by simp) (by omega)
            simpa using this
          have hne' : xs[i]? ≠ ys[i]? := by simpa using hne
          have hall' : ∀ j ∈ List.range xs.length, j ≠ i → xs[j]? = ys[j]? := by
            intro j hj hji
            have := hall (j + 1) (by simp at hj ⊢; omega) (by omega)
            simpa using this
          have hi' : i < xs.length := by simp at hi; omega
          rcases (combine_eq_some xs ys (xs.set i '-')).mp
              ((ih ys (xs.set i '-') hl').mpr ⟨i, hi', hne', hall', rfl⟩)
            with ⟨hd', hset⟩
          refine ⟨?_, ?_⟩
          · rw [countDiff, if_pos hxy, hd']
          · rw [mergeDiff, if_pos hxy, List.set_cons_succ, hset]

/-! ### The renderer -/

/-- The surviving-literal list of `bits_to_expr` is empty exactly when the
pattern is all '-' (for a pattern over {0,1,-} with one variable name per
position). -/
theorem literals_nil_iff : ∀ (bits : List Char) (vars : List String),
    bits.length = vars.length → (∀ c ∈ bits, c = '0' ∨ c = '1' ∨ c = '-') →
    ((((bits.zip vars).filterMap fun p =>
        if p.1 = '1' then some p.2
        else if p.1 = '0' then some ("!" ++ p.2)
        else none) = [])
      ↔ bits.all (· == '-') = true) := by
  intro bits
  induction bits with
  | nil =>
    intro vars hl _
    cases vars with
    | nil => simp
    | cons v vs => simp at hl
  | cons c cs ih =>
    intro vars hl hb
    cases vars with
    | nil => simp at hl
    | cons v vs =>
      have hl' : cs.length = vs.length := by simpa using hl
      have hb' : ∀ x ∈ cs, x = '0' ∨ x = '1' ∨ x = '-' := fun x hx => hb x (by simp [hx])
      rcases hb c (by simp) with h | h | h <;> subst h
      · simp [List.filterMap_cons]
      · simp [List.filterMap_cons]
      · simp [List.filterMap_cons, ih vs hl' hb']

/-! ### Claim theorems -/

/-- Claim C1: the coverage property fails on the code.  For n = 2 and
minterms {1, 3} the engine returns the single dash-free pattern "01"
(the recursion re-encodes "-1" as the integer 1, losing the dash), so the
input minterm 3 is covered by no returned pattern. -/
theorem qm_coverage_fails :
    qm_simplify {1, 3} 2 = {['0', '1']} ∧ 3 ∈ ({1, 3} : Finset Nat) ∧
    ∀ p ∈ qm_simplify {1, 3} 2, coversB p 2 3 = false := by decide

/-- Claim C2: both concrete scenarios fail on the code.  Minimizing
{0,1,2,3} at n = 2 returns {"00"}, not the all-'-' pattern, and minimizing
{1,3} returns {"01"}, rendered "!A.B", not {"-1"} rendered "B". -/
theorem qm_concrete_scenarios_fail :
    qm_simplify {0, 1, 2, 3} 2 = {['0', '0']} ∧
    qm_simplify {1, 3} 2 = {['0', '1']} ∧
    bits_to_expr ['0', '1'] ["A", "B"] = "!A.B" ∧
    bits_to_expr ['0', '0'] ["A", "B"] = "!A.!B" := by decide

/-- Claim C3: on a valid input every pattern returned by `qm_simplify` is a
full dash-free n-character binary string whose integer value is an input
minterm, and it covers exactly the one assignment given by its own value. -/
theorem qm_result_binary_minterm (minterms : Finset Nat) (n : Nat) (hn : 1 ≤ n)
    (hv : ∀ m ∈ minterms, m < 2 ^ n) :
    ∀ p ∈ qm_simplify minterms n,
      p.length = n ∧ (∀ c ∈ p, c = '0' ∨ c = '1') ∧ bitsToNat p ∈ minterms ∧
      ∀ m, m < 2 ^ n → (coversB p n m = true ↔ m = bitsToNat p) := by
  intro p hp
  have hsub := qm_simplify_subset minterms n hn hv hp
  rw [toTerms] at hsub
  rcases Finset.mem_image.mp hsub with ⟨m₀, hm₀, rfl⟩
  refine ⟨natToBits_length n m₀ hn (hv _ hm₀), natToBits_chars n m₀, ?_, ?_⟩
  · rw [bitsToNat_natToBits]
    exact hm₀
  · intro m hm
    rw [coversB_iff (natToBits n m₀) n m (natToBits_chars n m₀)
      (by rw [natToBits_length n m₀ hn (hv _ hm₀), natToBits_length n m hn hm]),
      bitsToNat_natToBits]
    constructor
    · intro h
      exact (natToBits_inj n m₀ m h).symm
    · intro h
      rw [h]

theorem qm_result_binary_minterm_witness :
    (['0', '1'] : List Char).length = 2 ∧ (∀ c ∈ ['0', '1'], c = '0' ∨ c = '1') ∧
    bitsToNat ['0', '1'] ∈ ({1, 3} : Finset Nat) ∧
    ∀ m, m < 2 ^ 2 → (coversB ['0', '1'] 2 m = true ↔ m = bitsToNat ['0', '1']) :=
  qm_result_binary_minterm {1, 3} 2 (by decide) (by decide) ['0', '1'] (by decide)

/-- Claim C4 (soundness): on a valid input — minterms and don't-cares valid
and disjoint — no pattern returned by the engine covers an assignment index
outside minterms ∪ dontcares (each returned pattern covers only its own
value, which is an input minterm; the engine itself never sees the
don't-care set). -/
theorem qm_soundness (minterms dontcares : Finset Nat) (n : Nat) (hn : 1 ≤ n)
    (hv : ∀ m ∈ minterms, m < 2 ^ n) (hd : ∀ m ∈ dontcares, m < 2 ^ n)
    (hdisj : Disjoint minterms dontcares) :
    ∀ p ∈ qm_simplify minterms n, ∀ m, m < 2 ^ n → coversB p n m = true →
      m ∈ minterms ∪ dontcares := by
  intro p hp m hm hcov
  have hsub := qm_simplify_subset minterms n hn hv hp
  rw [toTerms] at hsub
  rcases Finset.mem_image.mp hsub with ⟨m₀, hm₀, rfl⟩
  have heq := (coversB_iff _ n m (natToBits_chars n m₀)
    (by rw [natToBits_length n m₀ hn (hv _ hm₀), natToBits_length n m hn hm])).mp hcov
  rw [← natToBits_inj n m₀ m heq]
  exact Finset.mem_union_left _ hm₀

theorem qm_soundness_witness : (1 : Nat) ∈ ({1} : Finset Nat) ∪ {3} :=
  qm_soundness {1} {3} 3 (by decide) (by decide) (by decide) (by decide)
    ['0', '0', '1'] (by decide) 1 (by decide) (by decide)

/-- Claim C5 as stated is false: `combine` treats '-' like any other
character, so two patterns that differ in exactly one position where only
one of them holds '-' do produce a combined pattern. -/
theorem combine_dash_counterexample :
    combine ['-', '0'] ['0', '0'] = some ['-', '0'] := by decide

theorem combine_one_diff_spec_witness :
    combine ['0', '1'] ['1', '1'] = some ((['0', '1'] : List Char).set 0 '-') :=
  (combine_one_diff_spec ['0', '1'] ['1', '1'] ((['0', '1'] : List Char).set 0 '-')
    rfl).mpr ⟨0, by decide, by decide, by decide, rfl⟩

/-- Claim C6: on every valid input the level-by-level combination stops when
a level produces no new combined patterns, and the base case is reached
within at most `n` combining levels: fuel `n + 1` already returns a value,
and that value is the engine's result. -/
theorem qm_terminates_within_n_levels (minterms : Finset Nat) (n : Nat) (hn : 1 ≤ n)
    (hv : ∀ m ∈ minterms, m < 2 ^ n) :
    ∃ r, qmFuel (n + 1) minterms n = some r ∧ qm_simplify minterms n = r :=
  qm_simplify_eq_qmFuel minterms n hn hv

theorem qm_terminates_within_n_levels_witness :
    ∃ r, qmFuel 3 {0, 1, 2, 3} 2 = some r ∧ qm_simplify {0, 1, 2, 3} 2 = r :=
  qm_terminates_within_n_levels {0, 1, 2, 3} 2 (by decide) (by decide)

/-- Claim C7 fails on the code: `qm_simplify` accepts no don't-care set (and
`main` parses `--dontcare` but never uses it), so for minterms {1} at n = 3
the engine returns the lone uncombined encoding "001"; the don't-care 3 is
never seeded into the working set and no combined pattern "0-1" is formed. -/
theorem qm_dontcares_unused : qm_simplify {1} 3 = {['0', '0', '1']} := by decide

/-- Claim C8: `bits_to_expr` agrees with the renderer exactly as the
specification words it: positive literal for '1', negated literal for '0',
nothing for '-', joined with the AND connective '.', and an all-'-' pattern
rendered as the constant "1". -/
theorem bits_to_expr_meets_renderSpec (bits : List Char) (vars : List String)
    (hl : bits.length = vars.length)
    (hb : ∀ c ∈ bits, c = '0' ∨ c = '1' ∨ c = '-') :
    bits_to_expr bits vars = renderSpec bits vars := by
  rw [bits_to_expr, renderSpec]
  by_cases hall : bits.all (· == '-') = true
  · rw [if_pos ((literals_nil_iff bits vars hl hb).mpr hall), if_pos hall]
  · rw [if_neg (fun hnil => hall ((literals_nil_iff bits vars hl hb).mp hnil)),
      if_neg hall]

theorem bits_to_expr_meets_renderSpec_witness :
    bits_to_expr ['0', '-', '1'] ["A", "B", "C"]
      = renderSpec ['0', '-', '1'] ["A", "B", "C"] :=
  bits_to_expr_meets_renderSpec ['0', '-', '1'] ["A", "B", "C"] rfl (by decide)

/-- Claim C9 as stated is false: on the invalid input n = 1, minterms = {5}
(5 is outside [0, 2^1)) the engine signals nothing and runs to completion,
producing a full result in a single level. -/
theorem qm_no_validation_counterexample :
    qmFuel 2 {5} 1 = some {['1', '0', '1']} := by decide

/-- Claim C9 amended: the engine performs no input validation at all; an
out-of-range minterm is simply encoded with as many bits as it needs
(more than n) and processed normally. -/
theorem qm_no_validation :
    qm_simplify {5} 1 = {['1', '0', '1']} ∧ (natToBits 1 5).length = 3 := by decide

/-- Claim C10: on a valid input every pattern returned by the engine is a
string of width exactly n over the alphabet {0, 1, -}. -/
theorem qm_result_width (minterms : Finset Nat) (n : Nat) (hn : 1 ≤ n)
    (hv : ∀ m ∈ minterms, m < 2 ^ n) :
    ∀ p ∈ qm_simplify minterms n,
      p.length = n ∧ ∀ c ∈ p, c = '0' ∨ c = '1' ∨ c = '-' := by
  intro p hp
  have hsub := qm_simplify_subset minterms n hn hv hp
  rw [toTerms] at hsub
  rcases Finset.mem_image.mp hsub with ⟨m₀, hm₀, rfl⟩
  refine ⟨natToBits_length n m₀ hn (hv _ hm₀), fun c hc => ?_⟩
  rcases natToBits_chars n m₀ c hc with h | h
  · exact Or.inl h
  · exact Or.inr (Or.inl h)

theorem qm_result_width_witness :
    (['0', '0'] : List Char).length = 2 ∧
    ∀ c ∈ ['0', '0'], c = '0' ∨ c = '1' ∨ c = '-' :=
  qm_result_width {0, 1, 2, 3} 2 (by decide) (by decide) ['0', '0'] (by decide)
